import Mathlib

/-!
Shallow embedding of `src/lab_2_retrieval_w_bm25/main.py` (a BM25 / TF-IDF
text-retrieval lab) and proofs of the specification claims about it.

Modelling conventions:
* Python `str` is `String`, `float` arithmetic is exact `ℚ` arithmetic
  (claims compare formulas, not rounding), `int` is `ℤ` / `ℕ`.
* A Python `dict[str, float]` is an insertion-ordered association list
  `List (String × ℚ)`; assignment `d[k] = v` is `dictInsert` (replace in
  place if the key is present, else append), matching CPython semantics.
* A function that can return a value, return `None`, or raise
  `ZeroDivisionError` returns `PyOut α`; a function that only returns a
  value or `None` returns `Option α`.
* `isinstance` checks are vacuous in the typed embedding and are dropped;
  emptiness and value checks are kept.
-/

/-- Outcome of a Python call that can return a value, return `None`,
or raise an exception (here only `ZeroDivisionError` is reachable). -/
inductive PyOut (α : Type) where
  | value : α → PyOut α
  | absent : PyOut α
  | error : PyOut α
deriving DecidableEq, Repr

/-- Python dict assignment `d[k] = v`: replace the first (unique) binding
of `k` in place, else append the new binding at the end. -/
def dictInsert {κ α : Type} [DecidableEq κ] (k : κ) (v : α) : List (κ × α) → List (κ × α)
  | [] => [(k, v)]
  | p :: rest => if p.1 = k then (k, v) :: rest else p :: dictInsert k v rest

/-- Python dict read `d[k]` / membership `k in d`. -/
def dictLookup {κ α : Type} [DecidableEq κ] (k : κ) : List (κ × α) → Option α
  | [] => none
  | p :: rest => if p.1 = k then some p.2 else dictLookup k rest

/-- Python `d.keys()`. -/
def dictKeys {κ α : Type} (d : List (κ × α)) : List κ :=
  d.map Prod.fst

theorem dictLookup_insert_self {κ α : Type} [DecidableEq κ] (k : κ) (v : α)
    (d : List (κ × α)) : dictLookup k (dictInsert k v d) = some v := by
  induction d with
  | nil => simp [dictInsert, dictLookup]
  | cons p rest ih =>
    by_cases h : p.1 = k
    · simp [dictInsert, dictLookup, h]
    · simp [dictInsert, dictLookup, h, ih]

theorem dictLookup_insert_ne {κ α : Type} [DecidableEq κ] {k k' : κ} (v : α)
    (d : List (κ × α)) (h : k' ≠ k) :
    dictLookup k' (dictInsert k v d) = dictLookup k' d := by
  have hne : k ≠ k' := Ne.symm h
  induction d with
  | nil => simp [dictInsert, dictLookup, hne]
  | cons p rest ih =>
    by_cases hp : p.1 = k
    · simp [dictInsert, dictLookup, hp, hne]
    · simp only [dictInsert, if_neg hp, dictLookup, ih]

theorem dictLookup_eq_none_of_not_mem_keys {κ α : Type} [DecidableEq κ] {k : κ}
    {d : List (κ × α)} (h : k ∉ dictKeys d) : dictLookup k d = none := by
  induction d with
  | nil => simp [dictLookup]
  | cons p rest ih =>
    simp only [dictKeys, List.map_cons, List.mem_cons] at h
    push_neg at h
    have h1 : ¬ p.1 = k := Ne.symm h.1
    simp [dictLookup, h1, ih (by simpa [dictKeys] using h.2)]

theorem dictLookup_mem {κ α : Type} [DecidableEq κ] {k : κ} {v : α}
    {d : List (κ × α)} (h : dictLookup k d = some v) : (k, v) ∈ d := by
  induction d with
  | nil => simp [dictLookup] at h
  | cons p rest ih =>
    obtain ⟨k0, v0⟩ := p
    by_cases hp : k0 = k
    · simp only [dictLookup, hp, if_pos] at h
      obtain rfl : v0 = v := by simpa using h
      subst hp
      exact List.mem_cons_self _ _
    · simp only [dictLookup, hp, if_neg, not_false_iff] at h
      exact List.mem_cons_of_mem _ (ih h)

theorem dictInsert_of_not_mem_keys {κ α : Type} [DecidableEq κ] {k : κ} (v : α)
    {d : List (κ × α)} (h : k ∉ dictKeys d) : dictInsert k v d = d ++ [(k, v)] := by
  induction d with
  | nil => simp [dictInsert]
  | cons p rest ih =>
    simp only [dictKeys, List.map_cons, List.mem_cons] at h
    push_neg at h
    have h1 : ¬ p.1 = k := Ne.symm h.1
    simp [dictInsert, h1, ih (by simpa [dictKeys] using h.2)]

theorem dictKeys_insert {κ α : Type} [DecidableEq κ] (k : κ) (v : α)
    (d : List (κ × α)) :
    dictKeys (dictInsert k v d) = if k ∈ dictKeys d then dictKeys d else dictKeys d ++ [k] := by
  induction d with
  | nil => simp [dictInsert, dictKeys]
  | cons p rest ih =>
    by_cases hp : p.1 = k
    · simp [dictInsert, dictKeys, hp]
    · have hne : k ≠ p.1 := fun hh => hp hh.symm
      simp only [dictInsert, if_neg hp, dictKeys, List.map_cons] at ih ⊢
      rw [ih]
      by_cases hm : k ∈ List.map Prod.fst rest
      · simp [hm, hne]
      · simp [hm, hne]

theorem dictKeys_insert_nodup {κ α : Type} [DecidableEq κ] (k : κ) (v : α)
    {d : List (κ × α)} (h : (dictKeys d).Nodup) :
    (dictKeys (dictInsert k v d)).Nodup := by
  rw [dictKeys_insert]
  by_cases hm : k ∈ dictKeys d
  · simpa [hm]
  · simpa [hm, List.nodup_append] using h

theorem dictLookup_eq_none_iff {κ α : Type} [DecidableEq κ] (k : κ)
    (d : List (κ × α)) : dictLookup k d = none ↔ k ∉ dictKeys d := by
  constructor
  · intro h hm
    induction d with
    | nil => simp [dictKeys] at hm
    | cons p rest ih =>
      by_cases hp : p.1 = k
      · simp [dictLookup, hp] at h
      · simp only [dictLookup, hp, if_neg, not_false_iff] at h
        simp only [dictKeys, List.map_cons, List.mem_cons] at hm
        rcases hm with hm | hm
        · exact hp hm.symm
        · exact ih h (by simpa [dictKeys] using hm)
  · exact dictLookup_eq_none_of_not_mem_keys

/-- A dict in which every lookup fails is empty. -/
theorem dict_eq_nil_of_lookup_none {κ α : Type} [DecidableEq κ]
    {d : List (κ × α)} (h : ∀ k, dictLookup k d = none) : d = [] := by
  cases d with
  | nil => rfl
  | cons p rest =>
    have := h p.1
    simp [dictLookup] at this

/-! ### `tokenize`

```python
def tokenize(text):
    if not isinstance(text, str) or len(text) < 1:
        return None
    for symbol in text:
        if symbol.isalpha() or symbol == " ":
            continue
        text = text.replace(symbol, " ")
    return text.lower().split()
```

The loop iterates over the characters of the *original* string and replaces
every occurrence of each non-alphabetic, non-space character with a space;
the replacement character is itself a space, so the net effect is the
character-wise map `c ↦ (if c.isAlpha ∨ c = ' ' then c else ' ')`.
`str.split()` splits on whitespace runs and drops empty pieces; after the
replacement the only whitespace character left is `' '`. -/

/-- `str.split()` on a character list whose only whitespace is `' '`:
accumulate the current word (reversed in `cur`) and emit maximal
non-space runs. -/
def pySplitAux (cur : List Char) : List Char → List String
  | [] => if cur = [] then [] else [String.mk cur.reverse]
  | c :: rest =>
    if c = ' ' then
      if cur = [] then pySplitAux [] rest
      else String.mk cur.reverse :: pySplitAux [] rest
    else pySplitAux (c :: cur) rest

def tokenize (text : String) : Option (List String) :=
  if text.length < 1 then none
  else
    some (pySplitAux []
      (((text.data.map (fun c => if c.isAlpha ∨ c = ' ' then c else ' ')).map
        Char.toLower)))

/-! ### `remove_stopwords` -/

def remove_stopwords (tokens : List String) (stopwords : List String) :
    Option (List String) :=
  if tokens.length = 0 ∨ stopwords.length = 0 then none
  else some (tokens.filter (fun x => x ∉ stopwords))

/-! ### Claim C8: tokenize on a non-empty string with no alphabetic
characters returns the empty token list, not `None`. -/

theorem pySplitAux_all_space {l : List Char} (h : ∀ c ∈ l, c = ' ') :
    pySplitAux [] l = [] := by
  induction l with
  | nil => simp [pySplitAux]
  | cons c rest ih =>
    have hc : c = ' ' := h c (List.mem_cons_self c rest)
    simp only [pySplitAux, hc, if_pos, if_true]
    exact ih fun x hx => h x (List.mem_cons_of_mem c hx)

/-- C8: a non-empty string with no alphabetic characters tokenizes to the
empty list (a success outcome), not to the absent value. -/
theorem tokenize_no_alpha_eq_some_nil (text : String)
    (h1 : text ≠ "") (h2 : ∀ c ∈ text.data, ¬ c.isAlpha) :
    tokenize text = some [] := by
  obtain ⟨l⟩ := text
  have hl : l ≠ [] := by
    intro hd
    exact h1 (by rw [hd])
  have hlen : ¬ (String.mk l).length < 1 := by
    simpa [String.length, Nat.lt_one_iff, List.length_eq_zero] using hl
  unfold tokenize
  rw [if_neg hlen]
  congr 1
  apply pySplitAux_all_space
  intro c hc
  simp only [List.mem_map] at hc
  obtain ⟨c1, hc1, hc1e⟩ := hc
  obtain ⟨c0, hc0, hc0e⟩ := hc1
  have hna := h2 c0 hc0
  by_cases hsp : c0 = ' '
  · subst hsp
    rw [← hc1e, ← hc0e]
    decide
  · rw [← hc1e, ← hc0e]
    simp [hna, hsp]

/-- C8 witness: `tokenize "123!?"` is the empty token list. -/
theorem tokenize_no_alpha_witness : tokenize "123!?" = some [] :=
  tokenize_no_alpha_eq_some_nil "123!?" (by decide) (by decide)

/-! ### Claim C9: remove_stopwords can return the empty list. -/

/-- C9: when every token is a stopword (both lists non-empty),
`remove_stopwords` returns the empty list, not the absent value. -/
theorem remove_stopwords_all_stopwords_eq_some_nil
    (tokens stopwords : List String)
    (h1 : tokens ≠ []) (h2 : stopwords ≠ [])
    (h3 : ∀ t ∈ tokens, t ∈ stopwords) :
    remove_stopwords tokens stopwords = some [] := by
  unfold remove_stopwords
  rw [if_neg (by simp [h1, h2])]
  congr 1
  simp only [List.filter_eq_nil_iff]
  intro t ht
  simp [h3 t ht]

/-- C9 witness at a concrete input. -/
theorem remove_stopwords_all_stopwords_witness :
    remove_stopwords ["the", "a", "the"] ["a", "the"] = some [] :=
  remove_stopwords_all_stopwords_eq_some_nil _ _ (by decide) (by decide)
    (by decide)

/-! ### `calculate_tf`

```python
len_document = len(document_tokens)
token_set = set(set(vocab) | set(document_tokens))
tf_dict = {token: (document_tokens.count(token) / len_document) for token in token_set}
```

The key set is the union of vocabulary and document tokens; iteration order
of a Python `set` is unspecified, so it is modelled by the duplicate-free
enumeration `(vocab ++ document_tokens).dedup`. -/

def calculate_tf (vocab document_tokens : List String) :
    Option (List (String × ℚ)) :=
  if vocab.length = 0 ∨ document_tokens.length = 0 then none
  else
    let token_set := (vocab ++ document_tokens).dedup
    some (token_set.map
      (fun t => (t, (document_tokens.count t : ℚ) / (document_tokens.length : ℚ))))

theorem list_sum_map_add {α : Type} (l : List α) (f g : α → ℕ) :
    (l.map fun x => f x + g x).sum = (l.map f).sum + (l.map g).sum := by
  induction l with
  | nil => simp
  | cons a rest ih => simp [ih]; omega

theorem list_sum_map_indicator {α : Type} [DecidableEq α] {L : List α} (d : α)
    (hN : L.Nodup) (hd : d ∈ L) :
    (L.map fun t => if t = d then (1 : ℕ) else 0).sum = 1 := by
  induction L with
  | nil => simp at hd
  | cons a rest ih =>
    have hna : a ∉ rest := (List.nodup_cons.mp hN).1
    rcases List.mem_cons.mp hd with rfl | hdr
    · have hz : (rest.map fun t => if t = d then (1 : ℕ) else 0).sum = 0 := by
        apply List.sum_eq_zero
        intro x hx
        simp only [List.mem_map] at hx
        obtain ⟨t, ht, rfl⟩ := hx
        have : t ≠ d := fun hh => hna (hh ▸ ht)
        simp [this]
      simp [hz]
    · have hne : ¬ a = d := fun hh => hna (hh ▸ hdr)
      simp [hne, ih (List.nodup_cons.mp hN).2 hdr]

/-- Over a duplicate-free list `L` covering all elements of `doc`, the
occurrence counts of the members of `L` in `doc` sum to the length of
`doc`. -/
theorem list_sum_map_count {α : Type} [DecidableEq α] (doc : List α)
    {L : List α} (hN : L.Nodup) (hsub : ∀ x ∈ doc, x ∈ L) :
    (L.map fun t => doc.count t).sum = doc.length := by
  induction doc with
  | nil => simp
  | cons d rest ih =>
    have hrest : ∀ x ∈ rest, x ∈ L := fun x hx => hsub x (List.mem_cons_of_mem _ hx)
    have hd : d ∈ L := hsub d (List.mem_cons_self _ _)
    have hsplit : (L.map fun t => (d :: rest).count t) =
        L.map (fun t => rest.count t + if t = d then 1 else 0) := by
      apply List.map_congr_left
      intro t _
      by_cases h : t = d
      · simp [List.count_cons, h]
      · simp [List.count_cons, h, Ne.symm h]
    rw [hsplit, list_sum_map_add, ih hrest, list_sum_map_indicator d hN hd]
    simp

theorem list_sum_map_div {α : Type} (l : List α) (f : α → ℚ) (c : ℚ) :
    (l.map fun x => f x / c).sum = (l.map f).sum / c := by
  induction l with
  | nil => simp
  | cons a rest ih => simp [ih, add_div]

/-- C10: for a valid (non-empty) vocabulary and a non-empty document, the
values of the TF map returned by `calculate_tf` sum to exactly 1 in exact
rational arithmetic. -/
theorem calculate_tf_sum_one (vocab document_tokens : List String)
    (h1 : vocab ≠ []) (h2 : document_tokens ≠ []) :
    ∃ d, calculate_tf vocab document_tokens = some d ∧
      (d.map Prod.snd).sum = 1 := by
  unfold calculate_tf
  rw [if_neg (by simp [h1, h2])]
  refine ⟨_, rfl, ?_⟩
  rw [List.map_map]
  have hcomp : (Prod.snd ∘ fun t =>
      (t, (document_tokens.count t : ℚ) / (document_tokens.length : ℚ))) =
      fun t => (document_tokens.count t : ℚ) / (document_tokens.length : ℚ) := rfl
  rw [hcomp, list_sum_map_div]
  have hcast : ((vocab ++ document_tokens).dedup.map
      fun t => (document_tokens.count t : ℚ)).sum =
      (((vocab ++ document_tokens).dedup.map
        fun t => document_tokens.count t).sum : ℕ) := by
    rw [Nat.cast_list_sum, List.map_map]
    rfl
  rw [hcast, list_sum_map_count document_tokens (List.nodup_dedup _)
    (fun x hx => List.mem_dedup.mpr (List.mem_append_right _ hx))]
  have hlen : (document_tokens.length : ℚ) ≠ 0 := by
    simp [List.length_eq_zero, h2]
  exact div_self hlen

/-- C10 witness at a concrete input: the TF values over vocabulary
`["a","b"]` and document `["a","a","c"]` sum to 1. -/
theorem calculate_tf_sum_one_witness :
    ∃ d, calculate_tf ["a", "b"] ["a", "a", "c"] = some d ∧
      (d.map Prod.snd).sum = 1 :=
  calculate_tf_sum_one ["a", "b"] ["a", "a", "c"] (by decide) (by decide)

/-! ### `calculate_idf`

```python
for token in vocab:
    token_count = sum(1 for document in documents if token in document)
    idf = math.log((len(documents) - token_count + 0.5) / (token_count + 0.5))
    idf_dict[token] = idf
```

Validation first rejects empty inputs, then any vocabulary or document
token that is not a non-empty alphabetic string (`str.isalpha`). -/

/-- Python `str.isalpha()`: non-empty and all characters alphabetic. -/
def pyIsAlpha (s : String) : Bool :=
  !s.data.isEmpty && s.data.all Char.isAlpha

/-- `sum(1 for document in documents if token in document)`. -/
def docCount (documents : List (List String)) (token : String) : ℕ :=
  (documents.filter fun d => token ∈ d).length

/-- `math.log((len(documents) - token_count + 0.5) / (token_count + 0.5))`. -/
noncomputable def idfValue (documents : List (List String)) (token : String) : ℝ :=
  Real.log (((documents.length : ℝ) - (docCount documents token : ℝ) + 1 / 2) /
    ((docCount documents token : ℝ) + 1 / 2))

/-- The `for token in vocab` loop filling `idf_dict`. -/
noncomputable def idfLoop (documents : List (List String)) :
    List String → List (String × ℝ) → List (String × ℝ)
  | [], acc => acc
  | t :: rest, acc => idfLoop documents rest (dictInsert t (idfValue documents t) acc)

noncomputable def calculate_idf (vocab : List String)
    (documents : List (List String)) : Option (List (String × ℝ)) :=
  if vocab.length = 0 ∨ documents.length = 0 then none
  else if ¬ (vocab.all pyIsAlpha) then none
  else if ¬ (documents.all fun doc => doc.all pyIsAlpha) then none
  else some (idfLoop documents vocab [])

theorem idfLoop_lookup (documents : List (List String)) (L : List String) :
    ∀ (acc : List (String × ℝ)) (k : String),
      dictLookup k (idfLoop documents L acc) =
        if k ∈ L then some (idfValue documents k) else dictLookup k acc := by
  induction L with
  | nil => intro acc k; simp [idfLoop]
  | cons t rest ih =>
    intro acc k
    simp only [idfLoop]
    rw [ih]
    by_cases hk : k ∈ rest
    · simp [hk]
    · by_cases hkt : k = t
      · subst hkt
        simp [hk, dictLookup_insert_self]
      · simp [hk, hkt, dictLookup_insert_ne _ _ hkt]

theorem idfLoop_keys_nodup (documents : List (List String)) (L : List String) :
    ∀ acc, (dictKeys acc).Nodup → (dictKeys (idfLoop documents L acc)).Nodup := by
  induction L with
  | nil => intro acc h; simpa [idfLoop] using h
  | cons t rest ih =>
    intro acc h
    exact ih _ (dictKeys_insert_nodup _ _ h)

/-- A term occurring in every document of a non-empty corpus has negative
IDF. -/
theorem idfValue_neg (documents : List (List String)) (t : String)
    (hne : documents ≠ []) (hall : ∀ doc ∈ documents, t ∈ doc) :
    idfValue documents t < 0 := by
  have hc : docCount documents t = documents.length := by
    unfold docCount
    rw [List.filter_eq_self.mpr (by intro a ha; simpa using hall a ha)]
  have hN : 0 < (documents.length : ℝ) := by
    have : documents.length ≠ 0 := by simpa [List.length_eq_zero] using hne
    exact_mod_cast Nat.pos_of_ne_zero this
  unfold idfValue
  rw [hc]
  apply Real.log_neg
  · apply div_pos <;> nlinarith
  · rw [div_lt_one (by nlinarith)]
    nlinarith

/-- A term occurring in no document has the maximum IDF value for the
corpus. -/
theorem idfValue_max (documents : List (List String)) (t : String)
    (hnone : ∀ doc ∈ documents, t ∉ doc) :
    ∀ s, idfValue documents s ≤ idfValue documents t := by
  intro s
  have hct : docCount documents t = 0 := by
    unfold docCount
    simp only [List.length_eq_zero, List.filter_eq_nil_iff]
    intro a ha
    simpa using hnone a ha
  have hcs : docCount documents s ≤ documents.length := List.length_filter_le _ _
  have hN0 : (0 : ℝ) ≤ (documents.length : ℝ) := by positivity
  have hs0 : (0 : ℝ) ≤ (docCount documents s : ℝ) := by positivity
  have hsN : (docCount documents s : ℝ) ≤ (documents.length : ℝ) := by
    exact_mod_cast hcs
  unfold idfValue
  rw [hct]
  rw [Real.log_le_log_iff]
  · rw [div_le_div_iff₀ (by nlinarith) (by norm_num)]
    push_cast
    nlinarith
  · apply div_pos <;> nlinarith
  · apply div_pos <;> nlinarith

/-- C5: `calculate_idf` on valid input returns a map keyed by exactly the
distinct vocabulary terms, each mapped to
`ln((N - n + 0.5) / (n + 0.5))` unclamped; a term in every document is
scored negatively and a term in no document gets the maximum score. -/
theorem calculate_idf_spec (vocab : List String) (documents : List (List String))
    (h1 : vocab ≠ []) (h2 : documents ≠ [])
    (h3 : vocab.all pyIsAlpha = true)
    (h4 : (documents.all fun doc => doc.all pyIsAlpha) = true) :
    ∃ d, calculate_idf vocab documents = some d ∧
      (dictKeys d).Nodup ∧
      (∀ t, dictLookup t d =
        if t ∈ vocab then some (idfValue documents t) else none) ∧
      (∀ t ∈ vocab, (∀ doc ∈ documents, t ∈ doc) → idfValue documents t < 0) ∧
      (∀ t ∈ vocab, (∀ doc ∈ documents, t ∉ doc) →
        ∀ s, idfValue documents s ≤ idfValue documents t) := by
  unfold calculate_idf
  rw [if_neg (by simp [h1, h2]), if_neg (by simp [h3]), if_neg (by simp [h4])]
  refine ⟨_, rfl, idfLoop_keys_nodup _ _ _ (by simp [dictKeys]), ?_, ?_, ?_⟩
  · intro t
    rw [idfLoop_lookup]
    by_cases h : t ∈ vocab <;> simp [h, dictLookup]
  · intro t _ hall
    exact idfValue_neg documents t h2 hall
  · intro t _ hnone s
    exact idfValue_max documents t hnone s

/-- C5 witness at a concrete corpus: vocabulary `["ab","cd"]` over
documents `[["ab","cd"],["ab","ef"]]`. -/
theorem calculate_idf_spec_witness :
    ∃ d, calculate_idf ["ab", "cd"] [["ab", "cd"], ["ab", "ef"]] = some d ∧
      (dictKeys d).Nodup ∧
      (∀ t, dictLookup t d =
        if t ∈ ["ab", "cd"] then
          some (idfValue [["ab", "cd"], ["ab", "ef"]] t) else none) ∧
      (∀ t ∈ ["ab", "cd"],
        (∀ doc ∈ [["ab", "cd"], ["ab", "ef"]], t ∈ doc) →
          idfValue [["ab", "cd"], ["ab", "ef"]] t < 0) ∧
      (∀ t ∈ ["ab", "cd"],
        (∀ doc ∈ [["ab", "cd"], ["ab", "ef"]], t ∉ doc) →
          ∀ s, idfValue [["ab", "cd"], ["ab", "ef"]] s ≤
            idfValue [["ab", "cd"], ["ab", "ef"]] t) :=
  calculate_idf_spec ["ab", "cd"] [["ab", "cd"], ["ab", "ef"]]
    (by decide) (by decide) (by decide) (by decide)

/-! ### `calculate_tf_idf`

```python
return {token: tf[token] * idf[token] for token in tf if token in idf} or None
```

The dict comprehension keeps, in insertion order, the TF keys that also
occur in the IDF map; `or None` turns an empty dict into `None`. -/

/-- The comprehension `{token: tf[token] * idf[token] for token in tf if token in idf}`
(for a well-formed `tf` dict, whose keys are unique). -/
def tfIdfComp (idf : List (String × ℚ)) : List (String × ℚ) → List (String × ℚ)
  | [] => []
  | p :: rest =>
    match dictLookup p.1 idf with
    | some iv => (p.1, p.2 * iv) :: tfIdfComp idf rest
    | none => tfIdfComp idf rest

def calculate_tf_idf (tf idf : List (String × ℚ)) : Option (List (String × ℚ)) :=
  let r := tfIdfComp idf tf
  if r = [] then none else some r

theorem tfIdfComp_eq_nil_iff (idf tf : List (String × ℚ)) :
    tfIdfComp idf tf = [] ↔ ∀ p ∈ tf, dictLookup p.1 idf = none := by
  induction tf with
  | nil => simp [tfIdfComp]
  | cons p rest ih =>
    cases hp : dictLookup p.1 idf with
    | some iv => simp [tfIdfComp, hp]
    | none => simp [tfIdfComp, hp, ih]

theorem tfIdfComp_lookup_of_not_mem (idf : List (String × ℚ)) {k : String} :
    ∀ {tf : List (String × ℚ)}, k ∉ dictKeys tf →
      dictLookup k (tfIdfComp idf tf) = none := by
  intro tf
  induction tf with
  | nil => intro _; simp [tfIdfComp, dictLookup]
  | cons p rest ih =>
    intro hk
    simp only [dictKeys, List.map_cons, List.mem_cons] at hk
    push_neg at hk
    have h1 : ¬ p.1 = k := Ne.symm hk.1
    cases hp : dictLookup p.1 idf with
    | some iv =>
      simp [tfIdfComp, hp, dictLookup, h1, ih (by simpa [dictKeys] using hk.2)]
    | none =>
      simp [tfIdfComp, hp, ih (by simpa [dictKeys] using hk.2)]

theorem tfIdfComp_lookup (idf : List (String × ℚ)) :
    ∀ (tf : List (String × ℚ)), (dictKeys tf).Nodup →
      ∀ k, dictLookup k (tfIdfComp idf tf) =
        match dictLookup k tf, dictLookup k idf with
        | some a, some iv => some (a * iv)
        | _, _ => none := by
  intro tf
  induction tf with
  | nil => intro _ k; simp [tfIdfComp, dictLookup]
  | cons p rest ih =>
    intro hN k
    rw [dictKeys, List.map_cons, List.nodup_cons] at hN
    obtain ⟨hp1, hN'⟩ := hN
    have hNr : (dictKeys rest).Nodup := hN'
    have hp1' : p.1 ∉ dictKeys rest := hp1
    by_cases hk : p.1 = k
    · subst hk
      cases hp : dictLookup p.1 idf with
      | some iv => simp [tfIdfComp, hp, dictLookup]
      | none =>
        simp only [tfIdfComp, hp]
        rw [tfIdfComp_lookup_of_not_mem idf hp1']
        simp [dictLookup, hp]
    · cases hp : dictLookup p.1 idf with
      | some iv =>
        simp only [tfIdfComp, hp]
        simp [dictLookup, hk, ih hNr k]
      | none =>
        simp only [tfIdfComp, hp]
        rw [ih hNr k]
        simp [dictLookup, hk]

/-- C6: for a well-formed TF map and any IDF map, `calculate_tf_idf`
returns the map `t ↦ tf[t] * idf[t]` on the tokens present in both maps
(tokens absent from IDF are dropped), and returns the absent value exactly
when that map would be empty. -/
theorem calculate_tf_idf_spec (tf idf : List (String × ℚ))
    (h : (dictKeys tf).Nodup) :
    (calculate_tf_idf tf idf = none ↔ ∀ p ∈ tf, dictLookup p.1 idf = none) ∧
    (∀ d, calculate_tf_idf tf idf = some d →
      ∀ k, dictLookup k d =
        match dictLookup k tf, dictLookup k idf with
        | some a, some iv => some (a * iv)
        | _, _ => none) := by
  constructor
  · unfold calculate_tf_idf
    by_cases hnil : tfIdfComp idf tf = []
    · simp only [hnil, if_pos]
      simpa using (tfIdfComp_eq_nil_iff idf tf).mp hnil
    · simp only [hnil, if_neg, not_false_iff]
      constructor
      · intro hc; cases hc
      · intro hall
        exact absurd ((tfIdfComp_eq_nil_iff idf tf).mpr hall) hnil
  · intro d hd k
    unfold calculate_tf_idf at hd
    by_cases hnil : tfIdfComp idf tf = []
    · simp [hnil] at hd
    · simp only [hnil, if_neg, not_false_iff, Option.some.injEq] at hd
      subst hd
      exact tfIdfComp_lookup idf tf h k

/-- C6 witness at concrete maps: `tf = {"a": 1/2, "b": 1/2}`,
`idf = {"a": 3}`. -/
theorem calculate_tf_idf_spec_witness :
    (calculate_tf_idf [("a", 1/2), ("b", 1/2)] [("a", 3)] = none ↔
      ∀ p ∈ [(("a" : String), (1/2 : ℚ)), ("b", 1/2)],
        dictLookup p.1 [(("a" : String), (3 : ℚ))] = none) ∧
    (∀ d, calculate_tf_idf [("a", 1/2), ("b", 1/2)] [("a", 3)] = some d →
      ∀ k, dictLookup k d =
        match dictLookup k [(("a" : String), (1/2 : ℚ)), ("b", 1/2)],
          dictLookup k [(("a" : String), (3 : ℚ))] with
        | some a, some iv => some (a * iv)
        | _, _ => none) :=
  calculate_tf_idf_spec [("a", 1/2), ("b", 1/2)] [("a", 3)] (by decide)

/-! ### `calculate_bm25`

```python
all_token_list = list(set(vocab) | set(document))
for token in all_token_list:
    token_count = document.count(token) if token in document else 0
    if token in idf_document.keys() and doc_len is not None and avg_doc_len is not None:
        bm25_dict[token] = idf_document[token] * ((token_count * (k1 + 1)) /
            (token_count + k1 * (1 - b + b * (doc_len / avg_doc_len))))
    else:
        bm25_dict[token] = 0
```

Validation requires `avg_doc_len` to be a float and `doc_len` an int, so
inside the loop both `is not None` tests are always true.  The two float
divisions can raise `ZeroDivisionError`: `doc_len / avg_doc_len` when
`avg_doc_len == 0`, and the outer division when its denominator is zero;
both are modelled by `none`. The set union is modelled by the
duplicate-free enumeration `(vocab ++ document).dedup`. -/

/-- One scored token in the BM25 loop; `none` models `ZeroDivisionError`. -/
def bm25Score (iv : ℚ) (tc : ℕ) (k1 b avg_doc_len : ℚ) (doc_len : ℤ) : Option ℚ :=
  if avg_doc_len = 0 then none
  else
    let denom := (tc : ℚ) + k1 * (1 - b + b * ((doc_len : ℚ) / avg_doc_len))
    if denom = 0 then none
    else some (iv * (((tc : ℚ) * (k1 + 1)) / denom))

/-- The value the BM25 loop stores for a token when no division raises. -/
def bm25val (document : List String) (idf_document : List (String × ℚ))
    (k1 b avg_doc_len : ℚ) (doc_len : ℤ) (t : String) : ℚ :=
  match dictLookup t idf_document with
  | some iv => iv * (((document.count t : ℚ) * (k1 + 1)) /
      ((document.count t : ℚ) + k1 * (1 - b + b * ((doc_len : ℚ) / avg_doc_len))))
  | none => 0

/-- The `for token in all_token_list` loop of `calculate_bm25`. -/
def bm25Loop (document : List String) (idf_document : List (String × ℚ))
    (k1 b avg_doc_len : ℚ) (doc_len : ℤ) :
    List String → List (String × ℚ) → Option (List (String × ℚ))
  | [], acc => some acc
  | t :: rest, acc =>
    match dictLookup t idf_document with
    | some iv =>
      match bm25Score iv (document.count t) k1 b avg_doc_len doc_len with
      | some v => bm25Loop document idf_document k1 b avg_doc_len doc_len rest
          (dictInsert t v acc)
      | none => none
    | none => bm25Loop document idf_document k1 b avg_doc_len doc_len rest
        (dictInsert t (0 : ℚ) acc)

def calculate_bm25 (vocab document : List String)
    (idf_document : List (String × ℚ)) (k1 b avg_doc_len : ℚ) (doc_len : ℤ) :
    PyOut (List (String × ℚ)) :=
  if vocab.length = 0 ∨ document.length = 0 ∨ idf_document.length = 0 then
    PyOut.absent
  else
    match bm25Loop document idf_document k1 b avg_doc_len doc_len
        ((vocab ++ document).dedup) [] with
    | some d => PyOut.value d
    | none => PyOut.error

/-- When neither division can raise, the BM25 loop builds the dict whose
lookup is `bm25val` on the iterated tokens. -/
theorem bm25Loop_sound (document : List String) (idf_document : List (String × ℚ))
    (k1 b avg_doc_len : ℚ) (doc_len : ℤ)
    (havg : avg_doc_len ≠ 0)
    (hden : ∀ tc : ℕ,
      (tc : ℚ) + k1 * (1 - b + b * ((doc_len : ℚ) / avg_doc_len)) ≠ 0) :
    ∀ (L : List String) (acc : List (String × ℚ)),
      ∃ d, bm25Loop document idf_document k1 b avg_doc_len doc_len L acc = some d ∧
        (∀ k, dictLookup k d =
          if k ∈ L then some (bm25val document idf_document k1 b avg_doc_len doc_len k)
          else dictLookup k acc) ∧
        ((dictKeys acc).Nodup → (dictKeys d).Nodup) := by
  intro L
  induction L with
  | nil =>
    intro acc
    exact ⟨acc, rfl, by intro k; simp, fun h => h⟩
  | cons t rest ih =>
    intro acc
    cases hp : dictLookup t idf_document with
    | some iv =>
      have hscore : bm25Score iv (document.count t) k1 b avg_doc_len doc_len =
          some (bm25val document idf_document k1 b avg_doc_len doc_len t) := by
        unfold bm25Score bm25val
        rw [if_neg havg, if_neg (hden (document.count t)), hp]
      obtain ⟨d, hd, hlook, hnod⟩ := ih (dictInsert t
        (bm25val document idf_document k1 b avg_doc_len doc_len t) acc)
      refine ⟨d, ?_, ?_, ?_⟩
      · simp only [bm25Loop, hp, hscore, hd]
      · intro k
        rw [hlook k]
        by_cases hk : k ∈ rest
        · simp [hk]
        · by_cases hkt : k = t
          · subst hkt
            simp [hk, dictLookup_insert_self]
          · simp [hk, hkt, dictLookup_insert_ne _ _ hkt]
      · intro hacc
        exact hnod (dictKeys_insert_nodup _ _ hacc)
    | none =>
      obtain ⟨d, hd, hlook, hnod⟩ := ih (dictInsert t (0 : ℚ) acc)
      refine ⟨d, ?_, ?_, ?_⟩
      · simp only [bm25Loop, hp, hd]
      · intro k
        rw [hlook k]
        by_cases hk : k ∈ rest
        · simp [hk]
        · by_cases hkt : k = t
          · subst hkt
            have hv : bm25val document idf_document k1 b avg_doc_len doc_len k = 0 := by
              unfold bm25val
              rw [hp]
            simp [hk, dictLookup_insert_self, hv]
          · simp [hk, hkt, dictLookup_insert_ne _ _ hkt]
      · intro hacc
        exact hnod (dictKeys_insert_nodup _ _ hacc)

/-- With `avg_doc_len = 0`, the loop raises as soon as it reaches a token
with an IDF entry. -/
theorem bm25Loop_error_of_mem (document : List String)
    (idf_document : List (String × ℚ)) (k1 b : ℚ) (doc_len : ℤ) :
    ∀ (L : List String) (acc : List (String × ℚ)),
      (∃ t ∈ L, (dictLookup t idf_document).isSome) →
      bm25Loop document idf_document k1 b 0 doc_len L acc = none := by
  intro L
  induction L with
  | nil => intro acc h; simp at h
  | cons t rest ih =>
    intro acc ⟨u, hu, hus⟩
    cases hp : dictLookup t idf_document with
    | some iv =>
      simp only [bm25Loop, hp]
      have : bm25Score iv (document.count t) k1 b 0 doc_len = none := by
        unfold bm25Score
        simp
      rw [this]
    | none =>
      rcases List.mem_cons.mp hu with rfl | hur
      · rw [hp] at hus
        simp at hus
      · simp only [bm25Loop, hp]
        exact ih _ ⟨u, hur, hus⟩

/-- With `avg_doc_len = 0` but no iterated token in the IDF map, the loop
never divides and succeeds. -/
theorem bm25Loop_ok_of_no_idf (document : List String)
    (idf_document : List (String × ℚ)) (k1 b : ℚ) (doc_len : ℤ) :
    ∀ (L : List String) (acc : List (String × ℚ)),
      (∀ t ∈ L, dictLookup t idf_document = none) →
      ∃ d, bm25Loop document idf_document k1 b 0 doc_len L acc = some d := by
  intro L
  induction L with
  | nil => intro acc _; exact ⟨acc, rfl⟩
  | cons t rest ih =>
    intro acc h
    have ht := h t (List.mem_cons_self _ _)
    obtain ⟨d, hd⟩ := ih (dictInsert t (0 : ℚ) acc)
      (fun u hu => h u (List.mem_cons_of_mem _ hu))
    exact ⟨d, by simp only [bm25Loop, ht, hd]⟩

/-- The BM25 denominator is positive for standard parameters. -/
theorem bm25_denom_pos {k1 b avg_doc_len : ℚ} {doc_len : ℤ}
    (hk : 0 < k1) (hb0 : 0 ≤ b) (hb1 : b ≤ 1) (ha : 0 < avg_doc_len)
    (hdl : 0 < doc_len) (tc : ℕ) :
    0 < (tc : ℚ) + k1 * (1 - b + b * ((doc_len : ℚ) / avg_doc_len)) := by
  have hq : 0 < (doc_len : ℚ) / avg_doc_len :=
    div_pos (by exact_mod_cast hdl) ha
  have hinner : 0 < 1 - b + b * ((doc_len : ℚ) / avg_doc_len) := by
    rcases eq_or_lt_of_le hb0 with hb | hb
    · rw [← hb]; norm_num
    · nlinarith [mul_pos hb hq]
  have htc : (0 : ℚ) ≤ (tc : ℚ) := by positivity
  nlinarith [mul_pos hk hinner]

/-- C3: for valid inputs (non-empty vocabulary, document, IDF map; BM25
parameters in their standard ranges so no division is by zero),
`calculate_bm25` returns a map keyed by exactly the union of vocabulary
and document tokens; a token with an IDF entry is scored
`idf[t] * (f*(k1+1)) / (f + k1*(1 - b + b*(doc_len/avg_doc_len)))` with
`f` its count in the document, and a token without an IDF entry scores
exactly 0. -/
theorem calculate_bm25_spec (vocab document : List String)
    (idf_document : List (String × ℚ)) (k1 b avg_doc_len : ℚ) (doc_len : ℤ)
    (h1 : vocab ≠ []) (h2 : document ≠ []) (h3 : idf_document ≠ [])
    (hk : 0 < k1) (hb0 : 0 ≤ b) (hb1 : b ≤ 1) (ha : 0 < avg_doc_len)
    (hdl : 0 < doc_len) :
    ∃ d, calculate_bm25 vocab document idf_document k1 b avg_doc_len doc_len =
        PyOut.value d ∧
      (dictKeys d).Nodup ∧
      (∀ t, dictLookup t d =
        if t ∈ vocab ∨ t ∈ document then
          some (bm25val document idf_document k1 b avg_doc_len doc_len t)
        else none) ∧
      (∀ t, dictLookup t idf_document = none → t ∈ vocab ∨ t ∈ document →
        dictLookup t d = some 0) := by
  have havg : avg_doc_len ≠ 0 := ne_of_gt ha
  have hden := fun tc =>
    ne_of_gt (bm25_denom_pos hk hb0 hb1 ha hdl tc)
  obtain ⟨d, hd, hlook, hnod⟩ :=
    bm25Loop_sound document idf_document k1 b avg_doc_len doc_len havg hden
      ((vocab ++ document).dedup) []
  refine ⟨d, ?_, hnod (by simp [dictKeys]), ?_, ?_⟩
  · unfold calculate_bm25
    rw [if_neg (by simp [h1, h2, h3])]
    rw [hd]
  · intro t
    rw [hlook t]
    by_cases hm : t ∈ vocab ∨ t ∈ document
    · rw [if_pos (by simpa [List.mem_dedup, List.mem_append] using hm),
        if_pos hm]
    · rw [if_neg (by simpa [List.mem_dedup, List.mem_append] using hm),
        if_neg hm]
      simp [dictLookup]
  · intro t hnone hm
    rw [hlook t, if_pos (by simpa [List.mem_dedup, List.mem_append] using hm)]
    unfold bm25val
    rw [hnone]

/-- C3 witness at a concrete input: vocabulary `["a"]`, document
`["a","b"]`, IDF `{"a": 2}`, `k1 = 3/2`, `b = 3/4`, `avg_doc_len = 2`,
`doc_len = 2`. -/
theorem calculate_bm25_spec_witness :
    ∃ d, calculate_bm25 ["a"] ["a", "b"] [("a", 2)] (3/2) (3/4) 2 2 =
        PyOut.value d ∧
      (dictKeys d).Nodup ∧
      (∀ t, dictLookup t d =
        if t ∈ ["a"] ∨ t ∈ ["a", "b"] then
          some (bm25val ["a", "b"] [("a", 2)] (3/2) (3/4) 2 2 t)
        else none) ∧
      (∀ t, dictLookup t [(("a" : String), (2 : ℚ))] = none →
        t ∈ ["a"] ∨ t ∈ ["a", "b"] → dictLookup t d = some 0) :=
  calculate_bm25_spec ["a"] ["a", "b"] [("a", 2)] (3/2) (3/4) 2 2
    (by decide) (by decide) (by decide) (by norm_num) (by norm_num)
    (by norm_num) (by norm_num) (by norm_num)

/-! ### `calculate_spearman`

```python
n = len(rank)
rank_differences = 0
for item in rank:
    if item in golden_rank:
        rank_differences += (golden_rank.index(item) - rank.index(item)) ** 2
return 1 - (6 * rank_differences) / (n * (n**2 - 1))
```

`list.index` returns the first index of the item.  The final division is
Python true division and raises `ZeroDivisionError` when
`n * (n**2 - 1) == 0`, i.e. when `n == 1` (the lists are non-empty). -/

/-- The accumulated `rank_differences`. -/
def spearmanSum (rank golden_rank : List ℤ) : ℤ :=
  (rank.map (fun item =>
    if item ∈ golden_rank then
      ((golden_rank.indexOf item : ℤ) - (rank.indexOf item : ℤ)) ^ 2
    else 0)).sum

def calculate_spearman (rank golden_rank : List ℤ) : PyOut ℚ :=
  if rank.length = 0 ∨ golden_rank.length = 0 ∨
      rank.length ≠ golden_rank.length then PyOut.absent
  else
    let n : ℤ := rank.length
    if n * (n ^ 2 - 1) = 0 then PyOut.error
    else PyOut.value
      (1 - (6 * (spearmanSum rank golden_rank : ℚ)) / ((n : ℚ) * ((n : ℚ) ^ 2 - 1)))

/-! ### Claim C1

The claim states that no public operation raises on inputs satisfying its
preconditions; in particular that `calculate_spearman` never raises on
equal-length non-empty integer lists (including length 1) and that
`calculate_bm25` never raises when `avg_doc_len = 0.0`.  Both particular
statements are false: at length 1 the Spearman denominator `n*(n²-1)` is
zero and the division raises `ZeroDivisionError`, and with
`avg_doc_len = 0.0` the BM25 loop divides `doc_len / avg_doc_len` as soon
as a token has an IDF entry. -/

/-- C1 counterexample: `calculate_spearman([1], [1])` raises
`ZeroDivisionError` (it divides by `n*(n²-1) = 0`), and
`calculate_bm25(["a"], ["a"], {"a": 1.0}, 1.5, 0.75, 0.0, 1)` — all
arguments passing type validation, `avg_doc_len = 0.0` — raises
`ZeroDivisionError` on `doc_len / avg_doc_len`; neither returns a value
or the absent signal. -/
theorem spearman_bm25_raise_counterexample :
    calculate_spearman [1] [1] = PyOut.error ∧
    calculate_bm25 ["a"] ["a"] [("a", 1)] (3/2) (3/4) 0 1 = PyOut.error := by
  constructor
  · rfl
  · rfl

/-- C1 amended: the failure is exactly the zero denominators.
`calculate_spearman` returns a number on equal-length non-empty integer
lists of length ≥ 2 and raises at length 1; `calculate_bm25` with valid
(non-empty) collections and `avg_doc_len = 0.0` returns a map when no
token of `vocab ∪ document` has an IDF entry, and raises as soon as one
has. -/
theorem spearman_bm25_totality :
    (∀ (rank golden_rank : List ℤ), rank ≠ [] → golden_rank ≠ [] →
      rank.length = golden_rank.length → 2 ≤ rank.length →
      ∃ q, calculate_spearman rank golden_rank = PyOut.value q) ∧
    (∀ (rank golden_rank : List ℤ), rank.length = 1 →
      golden_rank.length = 1 →
      calculate_spearman rank golden_rank = PyOut.error) ∧
    (∀ (vocab document : List String) (idf_document : List (String × ℚ))
      (k1 b : ℚ) (doc_len : ℤ), vocab ≠ [] → document ≠ [] →
      idf_document ≠ [] →
      (∀ t, t ∈ vocab ∨ t ∈ document → dictLookup t idf_document = none) →
      ∃ d, calculate_bm25 vocab document idf_document k1 b 0 doc_len =
        PyOut.value d) ∧
    (∀ (vocab document : List String) (idf_document : List (String × ℚ))
      (k1 b : ℚ) (doc_len : ℤ), vocab ≠ [] → document ≠ [] →
      idf_document ≠ [] →
      (∃ t, (t ∈ vocab ∨ t ∈ document) ∧ (dictLookup t idf_document).isSome) →
      calculate_bm25 vocab document idf_document k1 b 0 doc_len =
        PyOut.error) := by
  refine ⟨?_, ?_, ?_, ?_⟩
  · intro rank golden_rank h1 h2 hlen hn
    unfold calculate_spearman
    rw [if_neg (by simp [List.length_eq_zero, h1, h2, hlen])]
    have hden : (rank.length : ℤ) * ((rank.length : ℤ) ^ 2 - 1) ≠ 0 := by
      have : (2 : ℤ) ≤ (rank.length : ℤ) := by exact_mod_cast hn
      nlinarith
    rw [if_neg hden]
    exact ⟨_, rfl⟩
  · intro rank golden_rank h1 h2
    unfold calculate_spearman
    rw [if_neg (by simp [h1, h2])]
    rw [h1]
    norm_num
  · intro vocab document idf_document k1 b doc_len h1 h2 h3 hno
    obtain ⟨d, hd⟩ := bm25Loop_ok_of_no_idf document idf_document k1 b doc_len
      ((vocab ++ document).dedup) []
      (fun t ht => hno t (by simpa [List.mem_dedup, List.mem_append] using ht))
    refine ⟨d, ?_⟩
    unfold calculate_bm25
    rw [if_neg (by simp [h1, h2, h3]), hd]
  · intro vocab document idf_document k1 b doc_len h1 h2 h3 hex
    obtain ⟨t, ht, hts⟩ := hex
    have herr := bm25Loop_error_of_mem document idf_document k1 b doc_len
      ((vocab ++ document).dedup) []
      ⟨t, by simpa [List.mem_dedup, List.mem_append] using ht, hts⟩
    unfold calculate_bm25
    rw [if_neg (by simp [h1, h2, h3]), herr]

/-- C1 amended-claim witness: the first and third parts applied at
concrete inputs. -/
theorem spearman_bm25_totality_witness :
    (∃ q, calculate_spearman [1, 2] [2, 1] = PyOut.value q) ∧
    (∃ d, calculate_bm25 ["a"] ["b"] [("c", 1)] (3/2) (3/4) 0 1 =
      PyOut.value d) :=
  ⟨spearman_bm25_totality.1 [1, 2] [2, 1] (by decide) (by decide)
      (by decide) (by decide),
    (spearman_bm25_totality.2.2.1 ["a"] ["b"] [("c", 1)] (3/2) (3/4) 1
      (by decide) (by decide) (by decide)
      (by intro t ht; rcases ht with h | h <;> simp_all <;> rfl))⟩

/-! ### `calculate_bm25_with_cutoff`

```python
for word in vocab:
    if word in idf_document and idf_document[word] >= alpha:
        word_count = document.count(word)
        bm25_with_cutoff[word] = idf_document[word] * ((word_count * (k1 + 1)) / (
                word_count + k1 * (1 - b + (b * doc_len / avg_doc_len))))
return bm25_with_cutoff
```

Validation additionally requires `doc_len >= 0`.  The formula writes the
length normalization as `(b * doc_len / avg_doc_len)` where
`calculate_bm25` writes `b * (doc_len / avg_doc_len)`; over exact rational
arithmetic these coincide (`mul_div_assoc`). -/

/-- One scored word in the cutoff loop, with the division written exactly
as in the source; `none` models `ZeroDivisionError`. -/
def cutoffScore (iv : ℚ) (wc : ℕ) (k1 b avg_doc_len : ℚ) (doc_len : ℤ) : Option ℚ :=
  if avg_doc_len = 0 then none
  else
    let denom := (wc : ℚ) + k1 * (1 - b + b * (doc_len : ℚ) / avg_doc_len)
    if denom = 0 then none
    else some (iv * (((wc : ℚ) * (k1 + 1)) / denom))

/-- The cutoff formula equals the `calculate_bm25` formula token-for-token
(by associativity of multiplication and division over `ℚ`). -/
theorem cutoffScore_eq_bm25Score (iv : ℚ) (wc : ℕ) (k1 b avg_doc_len : ℚ)
    (doc_len : ℤ) :
    cutoffScore iv wc k1 b avg_doc_len doc_len =
      bm25Score iv wc k1 b avg_doc_len doc_len := by
  unfold cutoffScore bm25Score
  rw [mul_div_assoc]

/-- The `for word in vocab` loop of `calculate_bm25_with_cutoff`. -/
def cutoffLoop (document : List String) (idf_document : List (String × ℚ))
    (alpha k1 b avg_doc_len : ℚ) (doc_len : ℤ) :
    List String → List (String × ℚ) → Option (List (String × ℚ))
  | [], acc => some acc
  | w :: rest, acc =>
    match dictLookup w idf_document with
    | some iv =>
      if alpha ≤ iv then
        match cutoffScore iv (document.count w) k1 b avg_doc_len doc_len with
        | some v => cutoffLoop document idf_document alpha k1 b avg_doc_len doc_len
            rest (dictInsert w v acc)
        | none => none
      else cutoffLoop document idf_document alpha k1 b avg_doc_len doc_len rest acc
    | none => cutoffLoop document idf_document alpha k1 b avg_doc_len doc_len rest acc

def calculate_bm25_with_cutoff (vocab document : List String)
    (idf_document : List (String × ℚ)) (alpha k1 b avg_doc_len : ℚ)
    (doc_len : ℤ) : PyOut (List (String × ℚ)) :=
  if vocab = [] ∨ document = [] ∨ idf_document = [] ∨ doc_len < 0 then
    PyOut.absent
  else
    match cutoffLoop document idf_document alpha k1 b avg_doc_len doc_len
        vocab [] with
    | some d => PyOut.value d
    | none => PyOut.error

/-- When no division can raise, the cutoff loop builds the dict containing
exactly the iterated words whose IDF passes the threshold, scored with the
BM25 formula. -/
theorem cutoffLoop_sound (document : List String)
    (idf_document : List (String × ℚ)) (alpha k1 b avg_doc_len : ℚ)
    (doc_len : ℤ) (havg : avg_doc_len ≠ 0)
    (hden : ∀ wc : ℕ,
      (wc : ℚ) + k1 * (1 - b + b * ((doc_len : ℚ) / avg_doc_len)) ≠ 0) :
    ∀ (L : List String) (acc : List (String × ℚ)),
      ∃ d, cutoffLoop document idf_document alpha k1 b avg_doc_len doc_len L acc =
          some d ∧
        (∀ k, dictLookup k d =
          if k ∈ L ∧ (∃ iv, dictLookup k idf_document = some iv ∧ alpha ≤ iv) then
            some (bm25val document idf_document k1 b avg_doc_len doc_len k)
          else dictLookup k acc) ∧
        ((dictKeys acc).Nodup → (dictKeys d).Nodup) := by
  intro L
  induction L with
  | nil =>
    intro acc
    exact ⟨acc, rfl, by intro k; simp, fun h => h⟩
  | cons w rest ih =>
    intro acc
    cases hp : dictLookup w idf_document with
    | some iv =>
      by_cases hcut : alpha ≤ iv
      · have hscore : cutoffScore iv (document.count w) k1 b avg_doc_len doc_len =
            some (bm25val document idf_document k1 b avg_doc_len doc_len w) := by
          rw [cutoffScore_eq_bm25Score]
          unfold bm25Score bm25val
          rw [if_neg havg, if_neg (hden (document.count w)), hp]
        obtain ⟨d, hd, hlook, hnod⟩ := ih (dictInsert w
          (bm25val document idf_document k1 b avg_doc_len doc_len w) acc)
        refine ⟨d, ?_, ?_, ?_⟩
        · simp only [cutoffLoop, hp, hcut, if_pos, hscore, hd]
        · intro k
          rw [hlook k]
          by_cases hk : k ∈ rest ∧ ∃ iv2, dictLookup k idf_document = some iv2 ∧ alpha ≤ iv2
          · rw [if_pos hk, if_pos ⟨List.mem_cons_of_mem _ hk.1, hk.2⟩]
          · rw [if_neg hk]
            by_cases hkw : k = w
            · subst hkw
              rw [dictLookup_insert_self,
                if_pos ⟨List.mem_cons_self _ _, iv, hp, hcut⟩]
            · rw [dictLookup_insert_ne _ _ hkw]
              rw [if_neg (fun hc => hk ⟨(List.mem_cons.mp hc.1).resolve_left hkw, hc.2⟩)]
        · intro hacc
          exact hnod (dictKeys_insert_nodup _ _ hacc)
      · obtain ⟨d, hd, hlook, hnod⟩ := ih acc
        refine ⟨d, ?_, ?_, hnod⟩
        · simp only [cutoffLoop, hp, hcut, if_neg, not_false_iff, hd]
        · intro k
          rw [hlook k]
          by_cases hk : k ∈ rest ∧ ∃ iv2, dictLookup k idf_document = some iv2 ∧ alpha ≤ iv2
          · rw [if_pos hk, if_pos ⟨List.mem_cons_of_mem _ hk.1, hk.2⟩]
          · rw [if_neg hk]
            by_cases hkw : k = w
            · subst hkw
              rw [if_neg ?_]
              intro hc
              obtain ⟨iv2, hiv2, hle⟩ := hc.2
              rw [hp] at hiv2
              obtain rfl : iv = iv2 := by simpa using hiv2
              exact hcut hle
            · rw [if_neg (fun hc => hk ⟨(List.mem_cons.mp hc.1).resolve_left hkw, hc.2⟩)]
    | none =>
      obtain ⟨d, hd, hlook, hnod⟩ := ih acc
      refine ⟨d, ?_, ?_, hnod⟩
      · simp only [cutoffLoop, hp, hd]
      · intro k
        rw [hlook k]
        by_cases hk : k ∈ rest ∧ ∃ iv2, dictLookup k idf_document = some iv2 ∧ alpha ≤ iv2
        · rw [if_pos hk, if_pos ⟨List.mem_cons_of_mem _ hk.1, hk.2⟩]
        · rw [if_neg hk]
          by_cases hkw : k = w
          · subst hkw
            rw [if_neg ?_]
            intro hc
            obtain ⟨iv2, hiv2, _⟩ := hc.2
            rw [hp] at hiv2
            cases hiv2
          · rw [if_neg (fun hc => hk ⟨(List.mem_cons.mp hc.1).resolve_left hkw, hc.2⟩)]

/-- C4: for valid inputs, `calculate_bm25_with_cutoff` returns a map
containing precisely the vocabulary terms whose IDF entry is ≥ `alpha`,
each scored with the same BM25 formula as `calculate_bm25` (`bm25val`);
terms with IDF below `alpha` (or without an IDF entry) are omitted
entirely, and when `alpha` exceeds every IDF value the result is the empty
map. -/
theorem calculate_bm25_with_cutoff_spec (vocab document : List String)
    (idf_document : List (String × ℚ)) (alpha k1 b avg_doc_len : ℚ)
    (doc_len : ℤ)
    (h1 : vocab ≠ []) (h2 : document ≠ []) (h3 : idf_document ≠ [])
    (hk : 0 < k1) (hb0 : 0 ≤ b) (hb1 : b ≤ 1) (ha : 0 < avg_doc_len)
    (hdl : 0 < doc_len) :
    ∃ d, calculate_bm25_with_cutoff vocab document idf_document alpha k1 b
        avg_doc_len doc_len = PyOut.value d ∧
      (dictKeys d).Nodup ∧
      (∀ t, dictLookup t d =
        if t ∈ vocab ∧ (∃ iv, dictLookup t idf_document = some iv ∧ alpha ≤ iv) then
          some (bm25val document idf_document k1 b avg_doc_len doc_len t)
        else none) ∧
      ((∀ p ∈ idf_document, p.2 < alpha) → d = []) := by
  have havg : avg_doc_len ≠ 0 := ne_of_gt ha
  have hden := fun wc =>
    ne_of_gt (bm25_denom_pos hk hb0 hb1 ha hdl wc)
  obtain ⟨d, hd, hlook, hnod⟩ :=
    cutoffLoop_sound document idf_document alpha k1 b avg_doc_len doc_len
      havg hden vocab []
  have hlook' : ∀ t, dictLookup t d =
      if t ∈ vocab ∧ (∃ iv, dictLookup t idf_document = some iv ∧ alpha ≤ iv) then
        some (bm25val document idf_document k1 b avg_doc_len doc_len t)
      else none := by
    intro t
    rw [hlook t]
    by_cases hc : t ∈ vocab ∧ ∃ iv, dictLookup t idf_document = some iv ∧ alpha ≤ iv
    · rw [if_pos hc, if_pos hc]
    · rw [if_neg hc, if_neg hc]
      simp [dictLookup]
  refine ⟨d, ?_, hnod (by simp [dictKeys]), hlook', ?_⟩
  · unfold calculate_bm25_with_cutoff
    rw [if_neg (by simp [h1, h2, h3]; omega), hd]
  · intro hbelow
    apply dict_eq_nil_of_lookup_none
    intro k
    rw [hlook' k]
    apply if_neg
    intro hc
    obtain ⟨_, iv, hiv, hle⟩ := hc
    exact absurd hle (not_le.mpr (hbelow (k, iv) (dictLookup_mem hiv)))

/-- C4 witness at a concrete input: vocabulary `["a","b"]`, document
`["a","c"]`, IDF `{"a": 2, "b": 1}`, `alpha = 3/2`. -/
theorem calculate_bm25_with_cutoff_spec_witness :
    ∃ d, calculate_bm25_with_cutoff ["a", "b"] ["a", "c"]
        [("a", 2), ("b", 1)] (3/2) (3/2) (3/4) 2 2 = PyOut.value d ∧
      (dictKeys d).Nodup ∧
      (∀ t, dictLookup t d =
        if t ∈ ["a", "b"] ∧ (∃ iv,
            dictLookup t [(("a" : String), (2 : ℚ)), ("b", 1)] = some iv ∧
            (3/2 : ℚ) ≤ iv) then
          some (bm25val ["a", "c"] [("a", 2), ("b", 1)] (3/2) (3/4) 2 2 t)
        else none) ∧
      ((∀ p ∈ [(("a" : String), (2 : ℚ)), ("b", 1)], p.2 < 3/2) → d = []) :=
  calculate_bm25_with_cutoff_spec ["a", "b"] ["a", "c"] [("a", 2), ("b", 1)]
    (3/2) (3/2) (3/4) 2 2 (by decide) (by decide) (by decide)
    (by norm_num) (by norm_num) (by norm_num) (by norm_num) (by norm_num)

/-! ### `save_index` / `load_index`

```python
with open(file_path, 'w', encoding='utf-8') as file:
    dump(index, file)
...
with open(file_path, 'r', encoding='utf-8') as file:
    index = load(file)
```

The persistence boundary is modelled with a key-value file system
`List (String × Json)` mapping paths to the JSON document written there,
threaded explicitly through `save_index` / `load_index`.  `json.dump` of a
`list[dict[str, float]]` is an array of flat numeric objects in document
order, modelled structurally by `Json`; `json.load` reconstructs it
(Python round-trips `float` repr exactly, so numbers are kept as the same
`ℚ`).  A missing or wrongly shaped file yields `none`. -/

inductive Json where
  | num : ℚ → Json
  | arr : List Json → Json
  | obj : List (String × Json) → Json

/-- `json.dump` of one score map. -/
def docToJson (d : List (String × ℚ)) : Json :=
  Json.obj (d.map fun p => (p.1, Json.num p.2))

/-- `json.dump` of a whole index (array of objects, document order). -/
def indexToJson (index : List (List (String × ℚ))) : Json :=
  Json.arr (index.map docToJson)

def jsonToNum : Json → Option ℚ
  | Json.num q => some q
  | _ => none

def entriesToScores : List (String × Json) → Option (List (String × ℚ))
  | [] => some []
  | p :: rest =>
    match jsonToNum p.2, entriesToScores rest with
    | some q, some r => some ((p.1, q) :: r)
    | _, _ => none

def jsonToDoc : Json → Option (List (String × ℚ))
  | Json.obj l => entriesToScores l
  | _ => none

def itemsToIndex : List Json → Option (List (List (String × ℚ)))
  | [] => some []
  | j :: rest =>
    match jsonToDoc j, itemsToIndex rest with
    | some d, some r => some (d :: r)
    | _, _ => none

def jsonToIndex : Json → Option (List (List (String × ℚ)))
  | Json.arr l => itemsToIndex l
  | _ => none

/-- `save_index`: validate, then write the serialized index at
`file_path`; on invalid input, no write happens (the file system is
returned unchanged). -/
def save_index (index : List (List (String × ℚ))) (file_path : String)
    (fs : List (String × Json)) : List (String × Json) :=
  if index = [] ∨ file_path = "" then fs
  else dictInsert file_path (indexToJson index) fs

/-- `load_index`: validate the path, then read and parse the file at
`file_path`; a missing file or non-index JSON shape yields `none`. -/
def load_index (file_path : String) (fs : List (String × Json)) :
    Option (List (List (String × ℚ))) :=
  if file_path = "" then none
  else
    match dictLookup file_path fs with
    | some j => jsonToIndex j
    | none => none

theorem entriesToScores_map (d : List (String × ℚ)) :
    entriesToScores (d.map fun p => (p.1, Json.num p.2)) = some d := by
  induction d with
  | nil => simp [entriesToScores]
  | cons p rest ih =>
    simp [entriesToScores, jsonToNum, ih]

theorem jsonToDoc_docToJson (d : List (String × ℚ)) :
    jsonToDoc (docToJson d) = some d := by
  simp [docToJson, jsonToDoc, entriesToScores_map]

theorem itemsToIndex_map (index : List (List (String × ℚ))) :
    itemsToIndex (index.map docToJson) = some index := by
  induction index with
  | nil => simp [itemsToIndex]
  | cons d rest ih =>
    simp [itemsToIndex, jsonToDoc_docToJson, ih]

theorem jsonToIndex_indexToJson (index : List (List (String × ℚ))) :
    jsonToIndex (indexToJson index) = some index := by
  simp [indexToJson, jsonToIndex, itemsToIndex_map]

/-- C7: for every valid (non-empty) index and valid (non-empty) file path,
loading right after saving returns exactly the original index — same keys,
same values, same document order. -/
theorem load_save_roundtrip (index : List (List (String × ℚ)))
    (file_path : String) (fs : List (String × Json))
    (h1 : index ≠ []) (h2 : file_path ≠ "") :
    load_index file_path (save_index index file_path fs) = some index := by
  unfold save_index load_index
  rw [if_neg h2, if_neg (show ¬ (index = [] ∨ file_path = "") by simp [h1, h2]),
    dictLookup_insert_self]
  simp only [jsonToIndex_indexToJson]

/-- C7 witness: a concrete two-document index round-trips through a file
system that already holds an unrelated file. -/
theorem load_save_roundtrip_witness :
    load_index "idx.json"
      (save_index [[("a", 1/2), ("b", 3)], [("c", 7/5)]] "idx.json"
        [("other", Json.num 0)]) =
      some [[("a", 1/2), ("b", 3)], [("c", 7/5)]] :=
  load_save_roundtrip [[("a", 1/2), ("b", 3)], [("c", 7/5)]] "idx.json"
    [("other", Json.num 0)] (by decide) (by decide)

/-! ### `rank_documents`

```python
for bm25_tfidf_dict in indexes:
    i = indexes.index(bm25_tfidf_dict)
    value_sum = sum(bm25_tfidf_dict[token] for token in processed_query
                    if token in bm25_tfidf_dict)
    result_not_sorted[i] = value_sum
result_lst = list(result_not_sorted.items())
result_sorted = sorted(result_lst, key=lambda x: x[1], reverse=True)
```

`indexes.index(...)` returns the index of the first element comparing
equal under Python `==`.  For dicts, `==` compares key sets and the value
at each key and ignores insertion order (`dictBeq`), so any two score
maps that are equal *as maps* collapse onto the first index.
`sorted(..., reverse=True)` is a stable sort: descending by score, ties
keeping the original relative order; it is modelled by the insertion sort
`sortDesc`, whose output is the unique stable descending ordering. -/

/-- Python dict equality `d1 == d2`: the same keys mapped to the same
values, insensitive to insertion order. -/
def dictBeq {κ α : Type} [DecidableEq κ] [DecidableEq α]
    (d1 d2 : List (κ × α)) : Bool :=
  (dictKeys d1).all (fun k => decide (dictLookup k d1 = dictLookup k d2)) &&
  (dictKeys d2).all (fun k => decide (dictLookup k d1 = dictLookup k d2))

theorem dictBeq_eq_true_iff {κ α : Type} [DecidableEq κ] [DecidableEq α]
    (d1 d2 : List (κ × α)) :
    dictBeq d1 d2 = true ↔ ∀ k, dictLookup k d1 = dictLookup k d2 := by
  constructor
  · intro h k
    rw [dictBeq, Bool.and_eq_true, List.all_eq_true, List.all_eq_true] at h
    by_cases h1 : k ∈ dictKeys d1
    · simpa using h.1 k h1
    · by_cases h2 : k ∈ dictKeys d2
      · simpa using h.2 k h2
      · rw [dictLookup_eq_none_of_not_mem_keys h1,
          dictLookup_eq_none_of_not_mem_keys h2]
  · intro h
    rw [dictBeq, Bool.and_eq_true, List.all_eq_true, List.all_eq_true]
    exact ⟨fun k _ => by simp [h k], fun k _ => by simp [h k]⟩

theorem dictBeq_refl {κ α : Type} [DecidableEq κ] [DecidableEq α]
    (d : List (κ × α)) : dictBeq d d = true :=
  (dictBeq_eq_true_iff d d).mpr fun _ => rfl

/-- Python `list.index`: position of the first element that compares
equal to `a` under the `==` test `eq`. -/
def pyIndex {α : Type} (eq : α → α → Bool) (a : α) : List α → ℕ
  | [] => 0
  | b :: rest => if eq b a then 0 else pyIndex eq a rest + 1

/-- `sum(d[token] for token in pq if token in d)`. -/
def scoreSum (d : List (String × ℚ)) (pq : List String) : ℚ :=
  (pq.map fun t =>
    match dictLookup t d with
    | some v => v
    | none => 0).sum

/-- Insert into a list that is already stably sorted by descending score:
skip past strictly greater scores, then place the new element before
every element of equal or smaller score (the new element is the earliest
in the original order among those). -/
def insertDesc (x : ℕ × ℚ) : List (ℕ × ℚ) → List (ℕ × ℚ)
  | [] => [x]
  | y :: ys => if x.2 < y.2 then y :: insertDesc x ys else x :: y :: ys

/-- Stable sort by score descending (the semantics of
`sorted(..., key=lambda x: x[1], reverse=True)`). -/
def sortDesc : List (ℕ × ℚ) → List (ℕ × ℚ)
  | [] => []
  | x :: xs => insertDesc x (sortDesc xs)

/-- The `for bm25_tfidf_dict in indexes` loop filling `result_not_sorted`. -/
def rankLoop (all : List (List (String × ℚ))) (pq : List String) :
    List (List (String × ℚ)) → List (ℕ × ℚ) → List (ℕ × ℚ)
  | [], acc => acc
  | d :: rest, acc =>
    rankLoop all pq rest (dictInsert (pyIndex dictBeq d all) (scoreSum d pq) acc)

def rank_documents (indexes : List (List (String × ℚ))) (query : String)
    (stopwords : List String) : Option (List (ℕ × ℚ)) :=
  if indexes = [] ∨ query = "" ∨ stopwords = [] then none
  else
    match tokenize query with
    | none => none
    | some tq =>
      match remove_stopwords tq stopwords with
      | none => none
      | some pq => some (sortDesc (rankLoop indexes pq indexes []))

/-- The ordering delivered by the ranking stage: score strictly larger
first; among equal scores, smaller (earlier) document index first. -/
def rankOrdered (a b : ℕ × ℚ) : Prop :=
  b.2 < a.2 ∨ (a.2 = b.2 ∧ a.1 < b.1)

theorem insertDesc_perm (x : ℕ × ℚ) (l : List (ℕ × ℚ)) :
    (insertDesc x l).Perm (x :: l) := by
  induction l with
  | nil => simp [insertDesc]
  | cons y ys ih =>
    by_cases h : x.2 < y.2
    · simp only [insertDesc, h, if_pos]
      exact (ih.cons y).trans (List.Perm.swap x y ys)
    · simp [insertDesc, h]

theorem sortDesc_perm (l : List (ℕ × ℚ)) : (sortDesc l).Perm l := by
  induction l with
  | nil => simp [sortDesc]
  | cons x xs ih =>
    exact (insertDesc_perm x (sortDesc xs)).trans (ih.cons x)

theorem insertDesc_pairwise {x : ℕ × ℚ} {l : List (ℕ × ℚ)}
    (hl : l.Pairwise rankOrdered) (hx : ∀ y ∈ l, x.1 < y.1) :
    (insertDesc x l).Pairwise rankOrdered := by
  induction l with
  | nil => simp [insertDesc]
  | cons y ys ih =>
    rw [List.pairwise_cons] at hl
    obtain ⟨hy, hys⟩ := hl
    have hxy : x.1 < y.1 := hx y (List.mem_cons_self _ _)
    have hxys : ∀ z ∈ ys, x.1 < z.1 := fun z hz => hx z (List.mem_cons_of_mem _ hz)
    by_cases h : x.2 < y.2
    · simp only [insertDesc, h, if_pos]
      rw [List.pairwise_cons]
      refine ⟨?_, ih hys hxys⟩
      intro z hz
      have hz' : z = x ∨ z ∈ ys :=
        List.mem_cons.mp ((insertDesc_perm x ys).mem_iff.mp hz)
      rcases hz' with rfl | hz'
      · exact Or.inl h
      · exact hy z hz'
    · simp only [insertDesc, h, if_neg, not_false_iff]
      rw [List.pairwise_cons]
      refine ⟨?_, by rw [List.pairwise_cons]; exact ⟨hy, hys⟩⟩
      intro z hz
      rcases List.mem_cons.mp hz with rfl | hz
      · rcases lt_or_eq_of_le (not_lt.mp h) with hlt | heq
        · exact Or.inl hlt
        · exact Or.inr ⟨heq.symm, hxy⟩
      · have hzy : z.2 ≤ y.2 := by
          rcases hy z hz with hlt | ⟨heq, _⟩
          · exact le_of_lt hlt
          · exact le_of_eq heq.symm
        have hzx : z.2 ≤ x.2 := le_trans hzy (not_lt.mp h)
        rcases lt_or_eq_of_le hzx with hlt | heq
        · exact Or.inl hlt
        · exact Or.inr ⟨heq.symm, hxys z hz⟩

theorem sortDesc_pairwise {l : List (ℕ × ℚ)}
    (hl : l.Pairwise fun a b => a.1 < b.1) :
    (sortDesc l).Pairwise rankOrdered := by
  induction l with
  | nil => simp [sortDesc]
  | cons x xs ih =>
    rw [List.pairwise_cons] at hl
    obtain ⟨hx, hxs⟩ := hl
    exact insertDesc_pairwise (ih hxs)
      (fun y hy => hx y ((sortDesc_perm xs).mem_iff.mp hy))

theorem pyIndex_getElem {α : Type} (eq : α → α → Bool) :
    ∀ (l : List α), (∀ a ∈ l, eq a a = true) →
      l.Pairwise (fun a b => eq a b = false) →
      ∀ (i : ℕ) (hi : i < l.length), pyIndex eq l[i] l = i := by
  intro l
  induction l with
  | nil => intro _ _ i hi; simp at hi
  | cons a rest ih =>
    intro hrefl hpw i hi
    cases i with
    | zero =>
      have ha : eq a a = true := hrefl a (List.mem_cons_self _ _)
      simp [pyIndex, ha]
    | succ n =>
      have hn : n < rest.length := by simpa using hi
      have hmem : rest[n] ∈ rest := List.getElem_mem hn
      have hne : eq a rest[n] = false :=
        (List.pairwise_cons.mp hpw).1 _ hmem
      have hrefl' : ∀ x ∈ rest, eq x x = true :=
        fun x hx => hrefl x (List.mem_cons_of_mem _ hx)
      simp only [List.getElem_cons_succ, pyIndex]
      rw [if_neg (by simp [hne]),
        ih hrefl' (List.pairwise_cons.mp hpw).2 n hn]

theorem rankLoop_eq (all : List (List (String × ℚ))) (pq : List String) :
    ∀ (L : List (List (String × ℚ))) (acc : List (ℕ × ℚ)),
      (L.map fun d => pyIndex dictBeq d all).Nodup →
      (∀ d ∈ L, pyIndex dictBeq d all ∉ dictKeys acc) →
      rankLoop all pq L acc =
        acc ++ L.map fun d => (pyIndex dictBeq d all, scoreSum d pq) := by
  intro L
  induction L with
  | nil => intro acc _ _; simp [rankLoop]
  | cons d rest ih =>
    intro acc hN hacc
    rw [List.map_cons, List.nodup_cons] at hN
    obtain ⟨hd, hN'⟩ := hN
    have hins : dictInsert (pyIndex dictBeq d all) (scoreSum d pq) acc =
        acc ++ [(pyIndex dictBeq d all, scoreSum d pq)] :=
      dictInsert_of_not_mem_keys _ (hacc d (List.mem_cons_self _ _))
    simp only [rankLoop, hins]
    rw [ih _ hN' ?_]
    · simp
    · intro d' hd'
      have hkeys : dictKeys (acc ++ [(pyIndex dictBeq d all, scoreSum d pq)]) =
          dictKeys acc ++ [pyIndex dictBeq d all] := by simp [dictKeys]
      rw [hkeys]
      intro hmem
      rcases List.mem_append.mp hmem with hmem | hmem
      · exact hacc d' (List.mem_cons_of_mem _ hd') hmem
      · have : pyIndex dictBeq d' all = pyIndex dictBeq d all := by
          simpa using hmem
        exact hd (this ▸
          List.mem_map_of_mem (fun d0 => pyIndex dictBeq d0 all) hd')

/-- C2 counterexample: with two score maps that are equal as dicts,
`indexes.index` returns 0 for both documents, so the result collapses to
the single pair `(0, 1)` — document index 1 gets no pair at all,
contradicting "exactly one (i, sum) pair for each document index".  The
second conjunct shows the same collapse for maps equal as dicts but built
in different insertion order: Python dict `==` ignores order. -/
theorem rank_documents_duplicate_counterexample :
    rank_documents [[("a", 1)], [("a", 1)]] "a" ["the"] = some [(0, 1)] ∧
    rank_documents [[("a", 1), ("b", 2)], [("b", 2), ("a", 1)]] "a" ["the"] =
      some [(0, 1)] := by
  constructor <;>
    simp +decide [rank_documents, tokenize, pySplitAux, remove_stopwords,
      rankLoop, pyIndex, dictBeq, dictKeys, scoreSum, dictInsert, dictLookup,
      sortDesc, insertDesc]

/-- C2 amended: under the additional assumption that the score maps are
pairwise distinct *as maps* (no two equal under Python dict `==`,
i.e. `dictBeq` — forced by the counterexample), `rank_documents` returns
exactly one pair `(i, sum)` for each document index, `sum` being the sum
of that document's scores over the stopword-filtered query tokens present
in it, sorted by sum descending with ties keeping the original document
order. -/
theorem rank_documents_spec (indexes : List (List (String × ℚ)))
    (query : String) (stopwords : List String) (tq : List String)
    (h1 : indexes ≠ [])
    (h2 : indexes.Pairwise fun d1 d2 => dictBeq d1 d2 = false)
    (h3 : query ≠ "")
    (h4 : stopwords ≠ []) (h5 : tokenize query = some tq) (h6 : tq ≠ []) :
    ∃ r, rank_documents indexes query stopwords = some r ∧
      r.length = indexes.length ∧
      (r.map Prod.fst).Nodup ∧
      (∀ (i : ℕ) (hi : i < indexes.length),
        (i, scoreSum (indexes.get ⟨i, hi⟩) (tq.filter fun t => t ∉ stopwords))
          ∈ r) ∧
      r.Pairwise rankOrdered := by
  have hrs : remove_stopwords tq stopwords =
      some (tq.filter fun t => t ∉ stopwords) := by
    unfold remove_stopwords
    rw [if_neg (by simp [List.length_eq_zero, h6, h4])]
  set pq : List String := tq.filter fun t => t ∉ stopwords with hpq
  have hmapIdx : (indexes.map fun d => pyIndex dictBeq d indexes) =
      List.range indexes.length := by
    apply List.ext_getElem (by simp)
    intro i hi1 hi2
    simp only [List.getElem_map, List.getElem_range]
    exact pyIndex_getElem dictBeq indexes (fun a _ => dictBeq_refl a) h2 i
      (by simpa using hi1)
  have hNidx : (indexes.map fun d => pyIndex dictBeq d indexes).Nodup := by
    rw [hmapIdx]; exact List.nodup_range _
  have hloop : rankLoop indexes pq indexes [] =
      indexes.map fun d => (pyIndex dictBeq d indexes, scoreSum d pq) := by
    rw [rankLoop_eq indexes pq indexes [] hNidx (by simp [dictKeys])]
    simp
  set pairs : List (ℕ × ℚ) :=
    indexes.map fun d => (pyIndex dictBeq d indexes, scoreSum d pq) with hpairs
  have hfst : pairs.map Prod.fst = List.range indexes.length := by
    rw [hpairs, List.map_map, ← hmapIdx]
    rfl
  have hperm : (sortDesc pairs).Perm pairs := sortDesc_perm pairs
  refine ⟨sortDesc pairs, ?_, ?_, ?_, ?_, ?_⟩
  · unfold rank_documents
    rw [if_neg (by simp [h1, h3, h4])]
    simp only [h5, hrs, hloop]
  · rw [hperm.length_eq, hpairs]
    simp
  · have : (sortDesc pairs).map Prod.fst |>.Perm (pairs.map Prod.fst) :=
      hperm.map Prod.fst
    rw [this.nodup_iff, hfst]
    exact List.nodup_range _
  · intro i hi
    have hmem : (i, scoreSum (indexes.get ⟨i, hi⟩) pq) ∈ pairs := by
      rw [hpairs]
      refine List.mem_map.mpr ⟨indexes.get ⟨i, hi⟩, List.get_mem _ _ _, ?_⟩
      exact Prod.ext_iff.mpr
        ⟨pyIndex_getElem dictBeq indexes (fun a _ => dictBeq_refl a) h2 i hi, rfl⟩
    exact hperm.mem_iff.mpr hmem
  · apply sortDesc_pairwise
    have : (pairs.map Prod.fst).Pairwise (· < ·) := by
      rw [hfst]; exact List.pairwise_lt_range _
    exact (List.pairwise_map.mp this)

/-- C2 amended-claim witness at the specification's own example:
indexes `[{"cat": 1, "dog": 1/2}, {"cat": 0, "dog": 2}]`, query
`"cat dog"`, stopwords `["the"]`. -/
theorem rank_documents_spec_witness :
    ∃ r, rank_documents [[("cat", 1), ("dog", 1/2)], [("cat", 0), ("dog", 2)]]
        "cat dog" ["the"] = some r ∧
      r.length = 2 ∧
      (r.map Prod.fst).Nodup ∧
      (∀ (i : ℕ) (hi : i < ([[("cat", (1 : ℚ)), ("dog", 1/2)],
          [("cat", 0), ("dog", 2)]] : List (List (String × ℚ))).length),
        (i, scoreSum ([[("cat", (1 : ℚ)), ("dog", 1/2)],
            [("cat", 0), ("dog", 2)]].get ⟨i, hi⟩)
          (["cat", "dog"].filter fun t => t ∉ ["the"])) ∈ r) ∧
      r.Pairwise rankOrdered :=
  rank_documents_spec [[("cat", 1), ("dog", 1/2)], [("cat", 0), ("dog", 2)]]
    "cat dog" ["the"] ["cat", "dog"] (by decide) (by decide) (by decide)
    (by decide) (by rfl) (by decide)
